import Mathlib

/-!
# Verification of the geometry kernel and search driver of `matt.boats`

Shallow embedding of `src/geom.rs` and `src/utils.rs` over exact rational
arithmetic: every `f32` value is modelled as a `ℚ`, and the `f32` length field
of `Line` (which may hold `f32::INFINITY`, used by `Line::new_ray`) is modelled
as `WithTop ℚ` with `⊤` standing for the infinite length.

`Line::new` in the source normalizes the direction vector (`direction.normalize()`),
which is not expressible over `ℚ` (it divides by a square root).  The embedding
stores the un-normalized direction instead; the lemma `intersect_segment_scale`
below proves that scaling the direction of a line by any positive factor `c`
while scaling its length by `1 / c` leaves `intersect_segment` unchanged, so the
un-normalized embedding computes exactly the same intersections as the
normalized source (normalization is the scaling by `c = 1 / ‖direction‖ > 0`,
with the stored length `‖end - start‖ = 1 / c` for segments and `⊤` for rays).
-/

/-- 2D vector of rationals, modelling `nalgebra::Vector2<f32>` (`Vec2f`). -/
structure Vec2f where
  x : ℚ
  y : ℚ
  deriving DecidableEq, Repr

instance : Add Vec2f := ⟨fun a b => ⟨a.x + b.x, a.y + b.y⟩⟩
instance : Sub Vec2f := ⟨fun a b => ⟨a.x - b.x, a.y - b.y⟩⟩
instance : Neg Vec2f := ⟨fun a => ⟨-a.x, -a.y⟩⟩
instance : SMul ℚ Vec2f := ⟨fun c v => ⟨c * v.x, c * v.y⟩⟩
instance : Zero Vec2f := ⟨⟨0, 0⟩⟩

theorem Vec2f.add_def (a b : Vec2f) : a + b = ⟨a.x + b.x, a.y + b.y⟩ := rfl
theorem Vec2f.sub_def (a b : Vec2f) : a - b = ⟨a.x - b.x, a.y - b.y⟩ := rfl
theorem Vec2f.neg_def (a : Vec2f) : -a = ⟨-a.x, -a.y⟩ := rfl
theorem Vec2f.smul_def (c : ℚ) (v : Vec2f) : c • v = ⟨c * v.x, c * v.y⟩ := rfl
theorem Vec2f.zero_def : (0 : Vec2f) = ⟨0, 0⟩ := rfl

theorem Vec2f.ext_iff' (a b : Vec2f) : a = b ↔ a.x = b.x ∧ a.y = b.y := by
  cases a; cases b; simp

/-- `struct Line { start, direction, length }` from `src/geom.rs`; `length` is an
`f32` that may be `INFINITY` (rays), modelled as `WithTop ℚ`. -/
structure Line where
  start : Vec2f
  direction : Vec2f
  length : WithTop ℚ
  deriving DecidableEq

/-- `Line::new_segment(start, end)`: the source stores the normalized difference
`(end - start).normalize()` as direction and `‖end - start‖` as length; the
embedding stores the raw difference with length `1`, which is the same line up
to the positive scaling handled by `intersect_segment_scale`. -/
def Line.new_segment (s e : Vec2f) : Line :=
  ⟨s, e - s, (1 : ℚ)⟩

/-- `Line::new_ray(start, direction)`: infinite length (the source stores
`direction.normalize()`; un-normalized here, see `intersect_segment_scale`). -/
def Line.new_ray (s d : Vec2f) : Line :=
  ⟨s, d, ⊤⟩

/-- `Line::end(&self)`: `self.start + self.length.min(1E10) * self.direction`.
The `f32` min of the possibly-infinite length with the finite cap `1E10 = 10^10`
is the `WithTop` min, which is always finite (extracted with `untop' 0`). -/
def Line.end (l : Line) : Vec2f :=
  l.start + ((min l.length ((10 : ℚ)^10 : ℚ)).untop' 0) • l.direction

/-- 2×2 rational matrix `[[a, b], [c, d]]`, modelling `na::Matrix2<f32>`. -/
structure Mat2 where
  a : ℚ
  b : ℚ
  c : ℚ
  d : ℚ
  deriving DecidableEq, Repr

/-- `Matrix2::from_columns(&[u, v])`. -/
def Mat2.fromCols (u v : Vec2f) : Mat2 :=
  ⟨u.x, v.x, u.y, v.y⟩

def Mat2.det (m : Mat2) : ℚ := m.a * m.d - m.b * m.c

/-- `Matrix2::try_inverse`: `None` exactly when the determinant is zero
(nalgebra's small-matrix path compares the determinant with zero). -/
def Mat2.try_inverse (m : Mat2) : Option Mat2 :=
  if m.det = 0 then none
  else some ⟨m.d / m.det, -m.b / m.det, -m.c / m.det, m.a / m.det⟩

/-- Matrix–vector product `m * w`. -/
def Mat2.mulVec (m : Mat2) (w : Vec2f) : Vec2f :=
  ⟨m.a * w.x + m.b * w.y, m.c * w.x + m.d * w.y⟩

/-- `intersect_segment(l, start, end)` from `src/geom.rs`:
builds the matrix with columns `l.direction` and `start - end`, inverts it,
applies it to `start - l.start` to get `(t, u)`, keeps the result only when
`t ∈ [0, l.length)` and `u ∈ [0, 1)`, and maps to `l.start + t * l.direction`. -/
def intersect_segment (l : Line) (s e : Vec2f) : Option Vec2f :=
  ((Mat2.fromCols l.direction (s - e)).try_inverse.map
      (fun m => m.mulVec (s - l.start))).filter
    (fun tu => decide (0 ≤ tu.x) && decide ((tu.x : WithTop ℚ) < l.length) &&
      decide (0 ≤ tu.y) && decide (tu.y < 1))
    |>.map (fun tu => l.start + tu.x • l.direction)

/-- `intersect_ray(a, start, direction)` from `src/geom.rs`: like
`intersect_segment` but with second column `-direction` and no upper bound on
the second parameter `u`. -/
def intersect_ray (a : Line) (s d : Vec2f) : Option Vec2f :=
  ((Mat2.fromCols a.direction (-d)).try_inverse.map
      (fun m => m.mulVec (s - a.start))).filter
    (fun tu => decide (0 ≤ tu.x) && decide ((tu.x : WithTop ℚ) < a.length) &&
      decide (0 ≤ tu.y))
    |>.map (fun tu => a.start + tu.x • a.direction)

/-- `ring_iter(v, start)` from `src/utils.rs`: `v.skip(start).chain(v.take(start))`. -/
def ring_iter {α : Type*} (v : List α) (start : Nat) : List α :=
  v.drop start ++ v.take start

/-- `minmax(lhs, rhs)` from `src/utils.rs`. -/
def minmax (lhs rhs : ℚ) : ℚ × ℚ :=
  if lhs ≤ rhs then (lhs, rhs) else (rhs, lhs)

/-- `maybe_min(lhs, rhs)` from `src/utils.rs`. -/
def maybe_min (lhs rhs : ℚ) : Bool :=
  decide (lhs < rhs)

/-- `min_in_place(lhs: &mut T, rhs: T) -> bool` from `src/utils.rs`:
`if *lhs >= rhs { *lhs = rhs; return true; } false`.  The mutation is embedded
by returning the pair (final value of `lhs`, returned bool). -/
def min_in_place {α : Type*} [LinearOrder α] (lhs rhs : α) : α × Bool :=
  if lhs ≥ rhs then (rhs, true) else (lhs, false)

/-- `point_in_polygon(pt, poly)` from `src/geom.rs`: counts the edges
`(poly[i], poly[i+1 mod n])` hit by the ray from `pt` in direction `(1, 1)`
(the source builds it with `Line::new_ray`, whose normalization is dropped as
justified by `intersect_segment_scale`) and tests the count for oddness. -/
def point_in_polygon (pt : Vec2f) (poly : List Vec2f) : Bool :=
  let ray : Line := Line.new_ray pt ⟨1, 1⟩
  let hits := ((poly.zip (ring_iter poly 1)).filter
    (fun se => (intersect_segment ray se.1 se.2).isSome)).length
  hits % 2 == 1

/-- `intersect_polygon(line, poly)` from `src/geom.rs`: does the line hit any
edge of the ring? -/
def intersect_polygon (line : Line) (poly : List Vec2f) : Bool :=
  (poly.zip (ring_iter poly 1)).any
    (fun se => (intersect_segment line se.1 se.2).isSome)

/-- `struct AABox { start, dim }` from `src/geom.rs`. -/
structure AABox where
  start : Vec2f
  dim : Vec2f
  deriving DecidableEq, Repr

/-- `AABox::corners(&self)`: start, start+(w,0), start+dim, start+(0,h). -/
def AABox.corners (b : AABox) : Fin 4 → Vec2f
  | 0 => b.start
  | 1 => b.start + ⟨b.dim.x, 0⟩
  | 2 => b.start + b.dim
  | 3 => b.start + ⟨0, b.dim.y⟩

/-- `AABox::center(&self)`. -/
def AABox.center (b : AABox) : Vec2f :=
  b.start + (1/2 : ℚ) • b.dim

/-- `AABox::split_mut(&mut self) -> AABox` from `src/geom.rs`: picks index 0
when `dim[0] >= dim[1]` and index 1 otherwise, halves `self.dim[index]` and
`new.dim[index]`, and offsets `new.start[index]` by the halved extent.  The
mutation is embedded by returning (shrunk self, new box). -/
def AABox.split_mut (b : AABox) : AABox × AABox :=
  if b.dim.x ≥ b.dim.y then
    let self' : AABox := ⟨b.start, ⟨0.5 * b.dim.x, b.dim.y⟩⟩
    let new : AABox := ⟨⟨b.start.x + self'.dim.x, b.start.y⟩, ⟨0.5 * b.dim.x, b.dim.y⟩⟩
    (self', new)
  else
    let self' : AABox := ⟨b.start, ⟨b.dim.x, 0.5 * b.dim.y⟩⟩
    let new : AABox := ⟨⟨b.start.x, b.start.y + self'.dim.y⟩, ⟨b.dim.x, 0.5 * b.dim.y⟩⟩
    (self', new)

/-- The tolerance `TOL = 1E-3` of `aabox_are_adjacent`. -/
def TOL : ℚ := 1/1000

/-- The closure `eq` of `aabox_are_adjacent`: `(lhs - rhs).abs() < TOL`. -/
def tol_eq (lhs rhs : ℚ) : Prop := |lhs - rhs| < TOL

/-- The closure `lt` of `aabox_are_adjacent`: `lhs - rhs < -TOL`. -/
def tol_lt (lhs rhs : ℚ) : Prop := lhs - rhs < -TOL

/-- The closure `gt` of `aabox_are_adjacent`: `lhs - rhs > TOL`. -/
def tol_gt (lhs rhs : ℚ) : Prop := lhs - rhs > TOL

instance (lhs rhs : ℚ) : Decidable (tol_eq lhs rhs) := by
  unfold tol_eq; infer_instance
instance (lhs rhs : ℚ) : Decidable (tol_lt lhs rhs) := by
  unfold tol_lt; infer_instance
instance (lhs rhs : ℚ) : Decidable (tol_gt lhs rhs) := by
  unfold tol_gt; infer_instance

/-- The closure `range_union` of `aabox_are_adjacent`: its three `return true`
branches become a disjunction. -/
def range_union (lhs rhs : ℚ × ℚ) : Prop :=
  (tol_eq lhs.1 rhs.1 ∧ tol_eq lhs.2 rhs.2) ∨
    ((tol_lt lhs.1 rhs.1 ∨ tol_eq lhs.1 rhs.1) ∧ tol_gt lhs.2 rhs.1) ∨
    ((tol_lt rhs.1 lhs.1 ∨ tol_eq rhs.1 lhs.1) ∧ tol_gt rhs.2 lhs.1)

instance (lhs rhs : ℚ × ℚ) : Decidable (range_union lhs rhs) := by
  unfold range_union; infer_instance

/-- `aabox_are_adjacent(lhs, rhs)` from `src/geom.rs`. -/
def aabox_are_adjacent (lhs rhs : AABox) : Bool :=
  let lhs_x_range := minmax (lhs.corners 0).x (lhs.corners 2).x
  let rhs_x_range := minmax (rhs.corners 0).x (rhs.corners 2).x
  let lhs_y_range := minmax (lhs.corners 0).y (lhs.corners 2).y
  let rhs_y_range := minmax (rhs.corners 0).y (rhs.corners 2).y
  decide
    (((tol_eq lhs_x_range.1 rhs_x_range.2 ∨ tol_eq lhs_x_range.2 rhs_x_range.1) ∧
        range_union lhs_y_range rhs_y_range) ∨
      ((tol_eq lhs_y_range.1 rhs_y_range.2 ∨ tol_eq lhs_y_range.2 rhs_y_range.1) ∧
        range_union lhs_x_range rhs_x_range))

/-- `point_in_aabox(pt, b)` from `src/geom.rs`. -/
def point_in_aabox (pt : Vec2f) (b : AABox) : Bool :=
  let e := b.start + b.dim
  decide (pt.x ≥ b.start.x) && decide (pt.x < e.x) &&
    decide (pt.y ≥ b.start.y) && decide (pt.y < e.y)

/-- Modelled from the spec: the `StepResult` tagged outcome of Step Search
(spec §3), whose defining code is not under `src/`:
`Step(point)`, `Success`, `Split`, `Failure(reason)`. -/
inductive StepResult where
  | step (p : Vec2f)
  | success
  | split
  | failure (reason : String)
  deriving DecidableEq, Repr

/-- Modelled from the spec: the Grid (spec §3), whose defining code is not
under `src/`: a flat collection of boxes plus parallel adjacency lists of
(neighbor index, validity flag) pairs. -/
structure Grid where
  boxes : List AABox
  neighbors : List (List (Nat × Bool))

/-- Modelled from the spec: the Step Search driver (spec §4.4), whose defining
code is not under `src/`; only its geometry-kernel callees are.  Step 1: "If
the segment `current→goal` does not cross `polygon`, return `Success`".
Steps 2–7 depend on the missing Grid/propagation code and are abstracted as the
`rest` parameter, which receives all of the call's inputs. -/
def step_search (rest : Vec2f → Vec2f → List Vec2f → Grid → StepResult)
    (current goal : Vec2f) (polygon : List Vec2f) (grid : Grid) : StepResult :=
  if intersect_polygon (Line.new_segment current goal) polygon then
    rest current goal polygon grid
  else
    StepResult.success

/-! ## Workhorse lemmas: closed form of the intersection routines -/

/-- The determinant of the matrix `intersect_segment` inverts. -/
def segDet (l : Line) (s e : Vec2f) : ℚ :=
  l.direction.x * (s.y - e.y) - (s.x - e.x) * l.direction.y

/-- The ray parameter produced by `intersect_segment` when the matrix inverts. -/
def segT (l : Line) (s e : Vec2f) : ℚ :=
  ((s.y - e.y) * (s.x - l.start.x) - (s.x - e.x) * (s.y - l.start.y)) / segDet l s e

/-- The segment parameter produced by `intersect_segment` when the matrix inverts. -/
def segU (l : Line) (s e : Vec2f) : ℚ :=
  (-l.direction.y * (s.x - l.start.x) + l.direction.x * (s.y - l.start.y)) / segDet l s e

theorem option_filter_some {α : Type*} (p : α → Bool) (a : α) :
    Option.filter p (some a) = if p a then some a else none := rfl

theorem intersect_segment_eq (l : Line) (s e : Vec2f) :
    intersect_segment l s e =
      if segDet l s e = 0 then none
      else if 0 ≤ segT l s e ∧ (segT l s e : WithTop ℚ) < l.length ∧
          0 ≤ segU l s e ∧ segU l s e < 1 then
        some (l.start + segT l s e • l.direction)
      else none := by
  unfold intersect_segment
  have hm : Mat2.fromCols l.direction (s - e) =
      ⟨l.direction.x, s.x - e.x, l.direction.y, s.y - e.y⟩ := rfl
  have hdet : (Mat2.fromCols l.direction (s - e)).det = segDet l s e := rfl
  by_cases h : segDet l s e = 0
  · rw [if_pos h]
    simp only [Mat2.try_inverse, hdet, if_pos h, Option.map_none']
    rfl
  · rw [if_neg h]
    simp only [Mat2.try_inverse, hdet, if_neg h, Option.map_some']
    have hTU : Mat2.mulVec
        ⟨(Mat2.fromCols l.direction (s - e)).d / segDet l s e,
          -(Mat2.fromCols l.direction (s - e)).b / segDet l s e,
          -(Mat2.fromCols l.direction (s - e)).c / segDet l s e,
          (Mat2.fromCols l.direction (s - e)).a / segDet l s e⟩ (s - l.start) =
        ⟨segT l s e, segU l s e⟩ := by
      rw [hm]
      simp only [Mat2.mulVec, Vec2f.sub_def, segT, segU, Vec2f.mk.injEq]
      constructor <;> ring
    rw [hTU, option_filter_some]
    have hiff : ((decide (0 ≤ (⟨segT l s e, segU l s e⟩ : Vec2f).x) &&
          decide (((⟨segT l s e, segU l s e⟩ : Vec2f).x : WithTop ℚ) < l.length) &&
          decide (0 ≤ (⟨segT l s e, segU l s e⟩ : Vec2f).y) &&
          decide ((⟨segT l s e, segU l s e⟩ : Vec2f).y < 1)) = true) ↔
        (0 ≤ segT l s e ∧ (segT l s e : WithTop ℚ) < l.length ∧
          0 ≤ segU l s e ∧ segU l s e < 1) := by
      simp [and_assoc]
    rw [if_congr hiff rfl rfl]
    by_cases hc : 0 ≤ segT l s e ∧ (segT l s e : WithTop ℚ) < l.length ∧
        0 ≤ segU l s e ∧ segU l s e < 1
    · rw [if_pos hc, if_pos hc, Option.map_some']
    · rw [if_neg hc, if_neg hc, Option.map_none']

/-- The point `l.start + t • l.direction` lies on the parametrized segment
`s + u • (e - s)` exactly when `(t, u)` solves the linear system that
`intersect_segment` inverts. -/
def segSystem (l : Line) (s e : Vec2f) (t u : ℚ) : Prop :=
  l.start + t • l.direction = s + u • (e - s)

theorem segSystem_iff (l : Line) (s e : Vec2f) (t u : ℚ) :
    segSystem l s e t u ↔
      l.start.x + t * l.direction.x = s.x + u * (e.x - s.x) ∧
        l.start.y + t * l.direction.y = s.y + u * (e.y - s.y) := by
  unfold segSystem
  rw [Vec2f.ext_iff']
  simp [Vec2f.add_def, Vec2f.sub_def, Vec2f.smul_def]

/-- Uniqueness: when the determinant is nonzero, any solution of the system is
the Cramer solution `(segT, segU)` that `intersect_segment` computes. -/
theorem segSystem_unique (l : Line) (s e : Vec2f) (t u : ℚ)
    (hsys : segSystem l s e t u) (hdet : segDet l s e ≠ 0) :
    t = segT l s e ∧ u = segU l s e := by
  rw [segSystem_iff] at hsys
  obtain ⟨h1, h2⟩ := hsys
  unfold segT segU
  unfold segDet at hdet ⊢
  constructor
  · field_simp
    linear_combination (s.y - e.y) * h1 - (s.x - e.x) * h2
  · field_simp
    linear_combination (-l.direction.y) * h1 + l.direction.x * h2

/-- Existence: when the determinant is nonzero, `(segT, segU)` solves the system. -/
theorem segSystem_solves (l : Line) (s e : Vec2f) (hdet : segDet l s e ≠ 0) :
    segSystem l s e (segT l s e) (segU l s e) := by
  rw [segSystem_iff]
  unfold segT segU
  unfold segDet at hdet ⊢
  constructor
  · field_simp
    ring
  · field_simp
    ring

/-! ## Claim theorems -/

/-- C1: `intersect_segment(l, a, b)` returns `Some(p)` only if the 2×2 linear
system has a solution `(t, u)` with `0 ≤ t < l.length` and `0 ≤ u < 1`, and
then `p = l.start + t * l.direction`; whenever a solution of the system falls
outside those half-open ranges, the result is `None`. -/
theorem intersect_segment_solution_ranges (l : Line) (s e : Vec2f) :
    (∀ p, intersect_segment l s e = some p →
      ∃ t u : ℚ, segSystem l s e t u ∧ 0 ≤ t ∧ (t : WithTop ℚ) < l.length ∧
        0 ≤ u ∧ u < 1 ∧ p = l.start + t • l.direction) ∧
    (∀ t u : ℚ, segSystem l s e t u →
      ¬(0 ≤ t ∧ (t : WithTop ℚ) < l.length ∧ 0 ≤ u ∧ u < 1) →
      intersect_segment l s e = none) := by
  constructor
  · intro p hp
    rw [intersect_segment_eq] at hp
    by_cases h : segDet l s e = 0
    · rw [if_pos h] at hp
      cases hp
    · rw [if_neg h] at hp
      by_cases hc : 0 ≤ segT l s e ∧ (segT l s e : WithTop ℚ) < l.length ∧
          0 ≤ segU l s e ∧ segU l s e < 1
      · rw [if_pos hc] at hp
        refine ⟨segT l s e, segU l s e, segSystem_solves l s e h,
          hc.1, hc.2.1, hc.2.2.1, hc.2.2.2, ?_⟩
        exact (Option.some_inj.mp hp).symm
      · rw [if_neg hc] at hp
        cases hp
  · intro t u hsys hrange
    rw [intersect_segment_eq]
    by_cases h : segDet l s e = 0
    · rw [if_pos h]
    · rw [if_neg h]
      obtain ⟨ht, hu⟩ := segSystem_unique l s e t u hsys h
      rw [if_neg (by rw [← ht, ← hu]; exact hrange)]

/-- Witness for C1 at a concrete hit: the ray from the origin along `(1, 0)`
with length `5` meets the segment from `(1, 1)` to `(1, -2)` at `(1, 0)`. -/
theorem intersect_segment_solution_ranges_witness :
    ∃ t u : ℚ,
      segSystem ⟨⟨0, 0⟩, ⟨1, 0⟩, (5 : ℚ)⟩ ⟨1, 1⟩ ⟨1, -2⟩ t u ∧ 0 ≤ t ∧
        (t : WithTop ℚ) < ((5 : ℚ) : WithTop ℚ) ∧ 0 ≤ u ∧ u < 1 ∧
        (⟨1, 0⟩ : Vec2f) = (⟨0, 0⟩ : Vec2f) + t • (⟨1, 0⟩ : Vec2f) :=
  (intersect_segment_solution_ranges ⟨⟨0, 0⟩, ⟨1, 0⟩, (5 : ℚ)⟩ ⟨1, 1⟩ ⟨1, -2⟩).1
    ⟨1, 0⟩ (by
      rw [intersect_segment_eq]
      norm_num [segDet, segT, segU, Vec2f.add_def, Vec2f.smul_def])

/-- 2D cross product (determinant of the pair of vectors). -/
def cross (u v : Vec2f) : ℚ := u.x * v.y - u.y * v.x

/-- Two 2D vectors are linearly dependent exactly when their cross product
vanishes; only the direction needed here. -/
theorem cross_eq_zero_of_dep (u v : Vec2f) (a b : ℚ) (hab : a ≠ 0 ∨ b ≠ 0)
    (h : a • u + b • v = 0) : cross u v = 0 := by
  rw [Vec2f.ext_iff'] at h
  simp only [Vec2f.add_def, Vec2f.smul_def, Vec2f.zero_def] at h
  obtain ⟨h1, h2⟩ := h
  unfold cross
  rcases hab with ha | hb
  · have : a * (u.x * v.y - u.y * v.x) = 0 := by linear_combination v.y * h1 - v.x * h2
    rcases mul_eq_zero.mp this with h' | h'
    · exact absurd h' ha
    · exact h'
  · have : b * (u.x * v.y - u.y * v.x) = 0 := by linear_combination (-u.y) * h1 + u.x * h2
    rcases mul_eq_zero.mp this with h' | h'
    · exact absurd h' hb
    · exact h'

/-- When the matrix built by `intersect_ray` is singular, the result is `None`. -/
theorem intersect_ray_det_zero (l : Line) (s d : Vec2f)
    (h : l.direction.x * (-d.y) - (-d.x) * l.direction.y = 0) :
    intersect_ray l s d = none := by
  unfold intersect_ray
  have hdet : (Mat2.fromCols l.direction (-d)).det =
      l.direction.x * (-d.y) - (-d.x) * l.direction.y := rfl
  simp only [Mat2.try_inverse, hdet, if_pos h, Option.map_none']
  rfl

/-- C6: for degenerate or parallel input — the line direction and the segment
vector `end - start` (resp. the ray direction `d`) linearly dependent,
zero-length segments included — `intersect_segment` and `intersect_ray`
return `None`.  Both embeddings are total functions into `Option`, so no
error and no invalid numeric value can be produced. -/
theorem intersect_degenerate_none (l : Line) (s e d : Vec2f) :
    (∀ a b : ℚ, (a ≠ 0 ∨ b ≠ 0) → a • l.direction + b • (e - s) = 0 →
      intersect_segment l s e = none) ∧
    (∀ a b : ℚ, (a ≠ 0 ∨ b ≠ 0) → a • l.direction + b • d = 0 →
      intersect_ray l s d = none) := by
  constructor
  · intro a b hab hdep
    have hcross := cross_eq_zero_of_dep l.direction (e - s) a b hab hdep
    rw [intersect_segment_eq, if_pos ?_]
    unfold cross at hcross
    unfold segDet
    simp only [Vec2f.sub_def] at hcross
    linear_combination -hcross
  · intro a b hab hdep
    have hcross := cross_eq_zero_of_dep l.direction d a b hab hdep
    apply intersect_ray_det_zero
    unfold cross at hcross
    linear_combination -hcross

/-- Witness for C6: a ray along `(1, 1)` against the parallel segment
`(0, 0) → (2, 2)` (dependence witness `2 • (1,1) - 1 • (2,2) = 0`), and
against the zero segment-direction `(0, 0)` (dependence witness `0, 1`). -/
theorem intersect_degenerate_none_witness :
    intersect_segment ⟨⟨5, 0⟩, ⟨1, 1⟩, ⊤⟩ ⟨0, 0⟩ ⟨2, 2⟩ = none ∧
      intersect_ray ⟨⟨5, 0⟩, ⟨1, 1⟩, ⊤⟩ ⟨0, 0⟩ ⟨0, 0⟩ = none :=
  ⟨(intersect_degenerate_none ⟨⟨5, 0⟩, ⟨1, 1⟩, ⊤⟩ ⟨0, 0⟩ ⟨2, 2⟩ ⟨0, 0⟩).1 2 (-1)
      (Or.inl (by norm_num))
      (by simp [Vec2f.smul_def, Vec2f.sub_def, Vec2f.add_def, Vec2f.zero_def]),
    (intersect_degenerate_none ⟨⟨5, 0⟩, ⟨1, 1⟩, ⊤⟩ ⟨0, 0⟩ ⟨2, 2⟩ ⟨0, 0⟩).2 0 1
      (Or.inr (by norm_num))
      (by simp [Vec2f.smul_def, Vec2f.add_def, Vec2f.zero_def])⟩

/-- Scaling invariance of `intersect_segment`: multiplying the direction of a
line by a positive factor `c` while dividing its (possibly infinite) length by
`c` leaves the result unchanged.  This is the lemma that justifies embedding
`Line::new` without the source's `direction.normalize()`: normalization is the
case `c = 1 / ‖direction‖ > 0`. -/
theorem intersect_segment_scale (p d : Vec2f) (len : WithTop ℚ) (s e : Vec2f)
    (c : ℚ) (hc : 0 < c) :
    intersect_segment ⟨p, c • d, len.map (fun x => x / c)⟩ s e =
      intersect_segment ⟨p, d, len⟩ s e := by
  have hc' : c ≠ 0 := ne_of_gt hc
  rw [intersect_segment_eq, intersect_segment_eq]
  have hdet : segDet ⟨p, c • d, len.map (fun x => x / c)⟩ s e =
      c * segDet ⟨p, d, len⟩ s e := by
    unfold segDet
    simp only [Vec2f.smul_def]
    ring
  by_cases h : segDet ⟨p, d, len⟩ s e = 0
  · rw [if_pos h, if_pos (by rw [hdet, h, mul_zero])]
  · have h' : segDet ⟨p, c • d, len.map (fun x => x / c)⟩ s e ≠ 0 := by
      rw [hdet]
      exact mul_ne_zero hc' h
    rw [if_neg h, if_neg h']
    have hT : segT ⟨p, c • d, len.map (fun x => x / c)⟩ s e =
        segT ⟨p, d, len⟩ s e / c := by
      simp only [segT, hdet]
      ring
    have hU : segU ⟨p, c • d, len.map (fun x => x / c)⟩ s e =
        segU ⟨p, d, len⟩ s e := by
      simp only [segU, hdet]
      simp only [Vec2f.smul_def]
      rw [show -(c * d.y) * (s.x - p.x) + c * d.x * (s.y - p.y) =
          c * (-d.y * (s.x - p.x) + d.x * (s.y - p.y)) from by ring]
      exact mul_div_mul_left _ _ hc'
    have hcond : (0 ≤ segT ⟨p, c • d, len.map (fun x => x / c)⟩ s e ∧
        (segT ⟨p, c • d, len.map (fun x => x / c)⟩ s e : WithTop ℚ) <
          len.map (fun x => x / c) ∧
        0 ≤ segU ⟨p, c • d, len.map (fun x => x / c)⟩ s e ∧
        segU ⟨p, c • d, len.map (fun x => x / c)⟩ s e < 1) ↔
        (0 ≤ segT ⟨p, d, len⟩ s e ∧
          (segT ⟨p, d, len⟩ s e : WithTop ℚ) < len ∧
          0 ≤ segU ⟨p, d, len⟩ s e ∧ segU ⟨p, d, len⟩ s e < 1) := by
      rw [hT, hU]
      constructor
      · rintro ⟨h1, h2, h3, h4⟩
        refine ⟨?_, ?_, h3, h4⟩
        · have := (le_div_iff₀ hc).mp h1
          simpa using this
        · cases len with
          | top => exact WithTop.coe_lt_top _
          | coe L =>
            simp only [WithTop.map_coe, WithTop.coe_lt_coe] at h2 ⊢
            exact (div_lt_div_iff_of_pos_right hc).mp h2
      · rintro ⟨h1, h2, h3, h4⟩
        refine ⟨?_, ?_, h3, h4⟩
        · rw [le_div_iff₀ hc, zero_mul]
          exact h1
        · cases len with
          | top => exact WithTop.coe_lt_top _
          | coe L =>
            simp only [WithTop.map_coe, WithTop.coe_lt_coe] at h2 ⊢
            exact (div_lt_div_iff_of_pos_right hc).mpr h2
    rw [if_congr hcond rfl rfl]
    by_cases hcnd : 0 ≤ segT ⟨p, d, len⟩ s e ∧
        (segT ⟨p, d, len⟩ s e : WithTop ℚ) < len ∧
        0 ≤ segU ⟨p, d, len⟩ s e ∧ segU ⟨p, d, len⟩ s e < 1
    · rw [if_pos hcnd, if_pos hcnd]
      congr 1
      rw [hT]
      rw [Vec2f.ext_iff']
      simp only [Vec2f.add_def, Vec2f.smul_def]
      constructor
      · field_simp
        ring
      · field_simp
        ring
    · rw [if_neg hcnd, if_neg hcnd]

/-- The ray from `pt` in the diagonal direction `(1, 1)` crosses the edge from
`a` to `b`: the edge is transversal to the ray (nonzero cross product) and the
unique crossing parameters satisfy `t ≥ 0` (on the ray) and `u ∈ [0, 1)` (on
the half-open edge). -/
def ray_hits_edge (pt a b : Vec2f) : Prop :=
  cross ⟨1, 1⟩ (b - a) ≠ 0 ∧
    ∃ t u : ℚ, 0 ≤ t ∧ 0 ≤ u ∧ u < 1 ∧
      pt + t • (⟨1, 1⟩ : Vec2f) = a + u • (b - a)

/-- The code path (`intersect_segment` against the diagonal ray) hits an edge
exactly when the semantic crossing predicate holds. -/
theorem intersect_hits_iff (pt a b : Vec2f) :
    (intersect_segment (Line.new_ray pt ⟨1, 1⟩) a b).isSome = true ↔
      ray_hits_edge pt a b := by
  have hds : segDet (Line.new_ray pt ⟨1, 1⟩) a b = -(cross ⟨1, 1⟩ (b - a)) := by
    unfold segDet cross Line.new_ray
    simp only [Vec2f.sub_def]
    ring
  constructor
  · intro h
    rw [intersect_segment_eq] at h
    by_cases hd : segDet (Line.new_ray pt ⟨1, 1⟩) a b = 0
    · rw [if_pos hd] at h
      simp at h
    · rw [if_neg hd] at h
      by_cases hcnd : 0 ≤ segT (Line.new_ray pt ⟨1, 1⟩) a b ∧
          (segT (Line.new_ray pt ⟨1, 1⟩) a b : WithTop ℚ) <
            (Line.new_ray pt ⟨1, 1⟩).length ∧
          0 ≤ segU (Line.new_ray pt ⟨1, 1⟩) a b ∧
          segU (Line.new_ray pt ⟨1, 1⟩) a b < 1
      · refine ⟨fun h0 => hd ?_, segT (Line.new_ray pt ⟨1, 1⟩) a b,
          segU (Line.new_ray pt ⟨1, 1⟩) a b, hcnd.1, hcnd.2.2.1, hcnd.2.2.2,
          segSystem_solves (Line.new_ray pt ⟨1, 1⟩) a b hd⟩
        rw [hds, h0, neg_zero]
      · rw [if_neg hcnd] at h
        simp at h
  · rintro ⟨hcross, t, u, ht, hu0, hu1, hsys⟩
    have hd : segDet (Line.new_ray pt ⟨1, 1⟩) a b ≠ 0 := by
      rw [hds]
      exact neg_ne_zero.mpr hcross
    have hsys' : segSystem (Line.new_ray pt ⟨1, 1⟩) a b t u := hsys
    obtain ⟨htEq, huEq⟩ := segSystem_unique (Line.new_ray pt ⟨1, 1⟩) a b t u hsys' hd
    rw [intersect_segment_eq, if_neg hd,
      if_pos ⟨htEq ▸ ht, WithTop.coe_lt_top _, huEq ▸ hu0, huEq ▸ hu1⟩]
    rfl

instance (pt a b : Vec2f) : Decidable (ray_hits_edge pt a b) :=
  decidable_of_iff _ (intersect_hits_iff pt a b)

/-- C2: `point_in_polygon(pt, poly)` returns true iff the number of polygon
edges — consecutive vertex pairs, wrapping the last vertex back to the first —
crossed by the ray from `pt` in the fixed diagonal direction `(1, 1)` is odd.
(Transversal crossings; an edge parallel to the ray is never counted, the
behaviour the spec documents as undefined.) -/
theorem point_in_polygon_odd_crossings (pt : Vec2f) (poly : List Vec2f) :
    point_in_polygon pt poly = true ↔
      Odd (List.countP (fun se => decide (ray_hits_edge pt se.1 se.2))
        (poly.zip (ring_iter poly 1))) := by
  have hcongr : List.countP
      (fun se => (intersect_segment (Line.new_ray pt ⟨1, 1⟩) se.1 se.2).isSome)
      (poly.zip (ring_iter poly 1)) =
      List.countP (fun se => decide (ray_hits_edge pt se.1 se.2))
        (poly.zip (ring_iter poly 1)) := by
    apply List.countP_congr
    intro se _
    rw [decide_eq_true_eq]
    exact intersect_hits_iff pt se.1 se.2
  simp only [point_in_polygon]
  rw [beq_iff_eq, ← List.countP_eq_length_filter, hcongr, Nat.odd_iff]

/-- C3: splitting a box with extent `(w, h)` halves it along the longer
dimension (ties toward the x axis): for `w ≥ h` the shrunk original keeps its
start corner with extent `(w/2, h)` and the new box starts `w/2` further along
x with extent `(w/2, h)`; for `w < h` the roles of the axes are swapped.
Determinism is inherent: `AABox.split_mut` is a pure function of its input. -/
theorem split_mut_halves (b : AABox) :
    (b.dim.x ≥ b.dim.y →
      b.split_mut.1 = ⟨b.start, ⟨b.dim.x / 2, b.dim.y⟩⟩ ∧
      b.split_mut.2 = ⟨⟨b.start.x + b.dim.x / 2, b.start.y⟩, ⟨b.dim.x / 2, b.dim.y⟩⟩) ∧
    (b.dim.x < b.dim.y →
      b.split_mut.1 = ⟨b.start, ⟨b.dim.x, b.dim.y / 2⟩⟩ ∧
      b.split_mut.2 = ⟨⟨b.start.x, b.start.y + b.dim.y / 2⟩, ⟨b.dim.x, b.dim.y / 2⟩⟩) := by
  constructor
  · intro h
    simp only [AABox.split_mut, if_pos h]
    constructor
    · simp only [AABox.mk.injEq, Vec2f.mk.injEq]
      norm_num
      ring
    · simp only [AABox.mk.injEq, Vec2f.mk.injEq]
      norm_num
      ring
  · intro h
    simp only [AABox.split_mut, if_neg (not_le.mpr h)]
    constructor
    · simp only [AABox.mk.injEq, Vec2f.mk.injEq]
      norm_num
      ring
    · simp only [AABox.mk.injEq, Vec2f.mk.injEq]
      norm_num
      ring

/-- Witness for C3 at the box with start `(1, 2)` and extent `(4, 2)`. -/
theorem split_mut_halves_witness :
    (⟨⟨1, 2⟩, ⟨4, 2⟩⟩ : AABox).split_mut.1 = ⟨⟨1, 2⟩, ⟨(4 : ℚ) / 2, 2⟩⟩ ∧
      (⟨⟨1, 2⟩, ⟨4, 2⟩⟩ : AABox).split_mut.2 =
        ⟨⟨1 + (4 : ℚ) / 2, 2⟩, ⟨(4 : ℚ) / 2, 2⟩⟩ :=
  (split_mut_halves ⟨⟨1, 2⟩, ⟨4, 2⟩⟩).1 (by norm_num)

/-- C8: splitting a box with strictly positive width and height yields a shrunk
original and a new box that again have strictly positive width and height. -/
theorem split_mut_positive (b : AABox) (hx : 0 < b.dim.x) (hy : 0 < b.dim.y) :
    (0 < b.split_mut.1.dim.x ∧ 0 < b.split_mut.1.dim.y) ∧
      (0 < b.split_mut.2.dim.x ∧ 0 < b.split_mut.2.dim.y) := by
  unfold AABox.split_mut
  by_cases h : b.dim.x ≥ b.dim.y
  · rw [if_pos h]
    refine ⟨⟨?_, ?_⟩, ?_, ?_⟩ <;> simp <;> linarith
  · rw [if_neg h]
    refine ⟨⟨?_, ?_⟩, ?_, ?_⟩ <;> simp <;> linarith

/-- Witness for C8 at the unit box. -/
theorem split_mut_positive_witness :
    (0 < ((⟨⟨0, 0⟩, ⟨1, 1⟩⟩ : AABox).split_mut.1.dim.x) ∧
        0 < ((⟨⟨0, 0⟩, ⟨1, 1⟩⟩ : AABox).split_mut.1.dim.y)) ∧
      (0 < ((⟨⟨0, 0⟩, ⟨1, 1⟩⟩ : AABox).split_mut.2.dim.x) ∧
        0 < ((⟨⟨0, 0⟩, ⟨1, 1⟩⟩ : AABox).split_mut.2.dim.y)) :=
  split_mut_positive ⟨⟨0, 0⟩, ⟨1, 1⟩⟩ (by norm_num) (by norm_num)

theorem tol_eq_comm (x y : ℚ) : tol_eq x y ↔ tol_eq y x := by
  unfold tol_eq
  rw [abs_sub_comm]

theorem range_union_symm (l r : ℚ × ℚ) (h : range_union l r) : range_union r l := by
  unfold range_union at h ⊢
  rcases h with ⟨h1, h2⟩ | h | h
  · exact Or.inl ⟨(tol_eq_comm l.1 r.1).mp h1, (tol_eq_comm l.2 r.2).mp h2⟩
  · exact Or.inr (Or.inr h)
  · exact Or.inr (Or.inl h)

theorem range_union_comm (l r : ℚ × ℚ) : range_union l r ↔ range_union r l :=
  ⟨range_union_symm l r, range_union_symm r l⟩

theorem adj_prop_symm (lx rx ly ry : ℚ × ℚ)
    (h : ((tol_eq lx.1 rx.2 ∨ tol_eq lx.2 rx.1) ∧ range_union ly ry) ∨
      ((tol_eq ly.1 ry.2 ∨ tol_eq ly.2 ry.1) ∧ range_union lx rx)) :
    ((tol_eq rx.1 lx.2 ∨ tol_eq rx.2 lx.1) ∧ range_union ry ly) ∨
      ((tol_eq ry.1 ly.2 ∨ tol_eq ry.2 ly.1) ∧ range_union rx lx) := by
  rcases h with ⟨hx, hu⟩ | ⟨hy, hu⟩
  · refine Or.inl ⟨?_, range_union_symm ly ry hu⟩
    rcases hx with h' | h'
    · exact Or.inr ((tol_eq_comm lx.1 rx.2).mp h')
    · exact Or.inl ((tol_eq_comm lx.2 rx.1).mp h')
  · refine Or.inr ⟨?_, range_union_symm lx rx hu⟩
    rcases hy with h' | h'
    · exact Or.inr ((tol_eq_comm ly.1 ry.2).mp h')
    · exact Or.inl ((tol_eq_comm ly.2 ry.1).mp h')

/-- C5: the box adjacency relation computed by `aabox_are_adjacent` is
symmetric. -/
theorem aabox_are_adjacent_symm (a b : AABox) :
    aabox_are_adjacent a b = aabox_are_adjacent b a := by
  simp only [aabox_are_adjacent]
  rw [decide_eq_decide]
  constructor
  · exact adj_prop_symm _ _ _ _
  · exact adj_prop_symm _ _ _ _

/-- C7: `point_in_aabox(p, b)` holds exactly when `p` lies in the half-open
box `[start, start + dim)` on both axes. -/
theorem point_in_aabox_iff (pt : Vec2f) (b : AABox) :
    point_in_aabox pt b = true ↔
      pt.x ∈ Set.Ico b.start.x (b.start.x + b.dim.x) ∧
        pt.y ∈ Set.Ico b.start.y (b.start.y + b.dim.y) := by
  simp only [point_in_aabox, Vec2f.add_def, Set.mem_Ico, Bool.and_eq_true,
    decide_eq_true_eq, ge_iff_le]
  tauto

/-- C4 counterexample: `min_in_place(1, 1)` returns `true` although the
proposed value is not strictly less than the current one (the source guard is
`*lhs >= rhs`, not a strict comparison). -/
theorem min_in_place_eq_counterexample :
    (min_in_place (1 : ℚ) 1).2 = true ∧ ¬((1 : ℚ) < 1) := by
  constructor
  · norm_num [min_in_place]
  · norm_num

/-- C4 (amended): `min_in_place(current, proposed)` overwrites `current` with
`proposed` and returns `true` iff `proposed ≤ current` — in particular on equal
values it writes the (equal) proposed value and returns `true`; the stored
result is always `min(current, proposed)`. -/
theorem min_in_place_le_spec {α : Type*} [LinearOrder α] (lhs rhs : α) :
    (min_in_place lhs rhs).1 = min lhs rhs ∧
      ((min_in_place lhs rhs).2 = true ↔ rhs ≤ lhs) := by
  unfold min_in_place
  by_cases h : rhs ≤ lhs
  · rw [if_pos h]
    exact ⟨(min_eq_right h).symm, iff_of_true rfl h⟩
  · rw [if_neg h]
    refine ⟨(min_eq_left (le_of_not_le h)).symm, iff_of_false (by simp) h⟩

/-- C9: whenever the segment from `current` to `goal` does not cross the
obstacle polygon, Step Search returns `Success` — regardless of the Grid's
state and of whatever the later steps (abstracted as `rest`) would do. -/
theorem step_search_direct_success
    (rest : Vec2f → Vec2f → List Vec2f → Grid → StepResult)
    (current goal : Vec2f) (polygon : List Vec2f) (grid : Grid)
    (h : intersect_polygon (Line.new_segment current goal) polygon = false) :
    step_search rest current goal polygon grid = StepResult.success := by
  simp [step_search, h]

/-- Witness for C9: the spec's direct-success scenario, `current = (10, 10)`,
`goal = (90, 90)`, with a small square obstacle away from the segment, an
arbitrary grid, and a `rest` continuation that would fail. -/
theorem step_search_direct_success_witness :
    step_search (fun _ _ _ _ => StepResult.failure "no box")
      ⟨10, 10⟩ ⟨90, 90⟩ [⟨0, 3⟩, ⟨1, 3⟩, ⟨1, 4⟩, ⟨0, 4⟩]
      ⟨[⟨⟨0, 0⟩, ⟨100, 100⟩⟩], [[]]⟩ = StepResult.success :=
  step_search_direct_success _ _ _ _ _ (by
    norm_num [intersect_polygon, ring_iter, Line.new_segment, intersect_segment_eq,
      segDet, segT, segU, Vec2f.sub_def])

/-- C10: `Line::end` caps the stored length at `1E10 = 10^10`: for an infinite
(ray) length the end point is `start + 10^10 * direction`, for a finite length
`q` it is `start + min(q, 10^10) * direction`; hence a ray built from a unit
direction (the source normalizes directions) ends at squared distance
`(10^10)^2` from its origin — a finite point. -/
theorem line_end_capped :
    (∀ l : Line, l.length = ⊤ →
      Line.end l = l.start + ((10 : ℚ)^10) • l.direction) ∧
    (∀ (l : Line) (q : ℚ), l.length = (q : WithTop ℚ) →
      Line.end l = l.start + (min q ((10 : ℚ)^10)) • l.direction) ∧
    (∀ s d : Vec2f, d.x ^ 2 + d.y ^ 2 = 1 →
      (Line.new_ray s d).length = ⊤ ∧
        Line.end (Line.new_ray s d) = s + ((10 : ℚ)^10) • d ∧
        ((Line.end (Line.new_ray s d)).x - s.x) ^ 2 +
          ((Line.end (Line.new_ray s d)).y - s.y) ^ 2 = ((10 : ℚ)^10) ^ 2) := by
  have htop : ∀ l : Line, l.length = ⊤ →
      Line.end l = l.start + ((10 : ℚ)^10) • l.direction := by
    intro l h
    unfold Line.end
    rw [h, min_top_left]
    rfl
  refine ⟨htop, ?_, ?_⟩
  · intro l q h
    unfold Line.end
    rw [h, ← WithTop.coe_min]
    rfl
  · intro s d hd
    refine ⟨rfl, htop (Line.new_ray s d) rfl, ?_⟩
    rw [htop (Line.new_ray s d) rfl]
    simp only [Line.new_ray, Vec2f.add_def, Vec2f.smul_def]
    ring_nf
    linear_combination ((10 : ℚ)^10) ^ 2 * hd

/-- Witness for C10: a finite line of length `5` (capped min is `5`) and the
unit diagonal-rational direction `(3/5, 4/5)`. -/
theorem line_end_capped_witness :
    Line.end ⟨⟨0, 0⟩, ⟨1, 0⟩, ((5 : ℚ) : WithTop ℚ)⟩ =
        (⟨0, 0⟩ : Vec2f) + (min (5 : ℚ) ((10 : ℚ)^10)) • (⟨1, 0⟩ : Vec2f) ∧
      ((Line.end (Line.new_ray ⟨0, 0⟩ ⟨3/5, 4/5⟩)).x - (0 : ℚ)) ^ 2 +
        ((Line.end (Line.new_ray ⟨0, 0⟩ ⟨3/5, 4/5⟩)).y - (0 : ℚ)) ^ 2 =
        ((10 : ℚ)^10) ^ 2 :=
  ⟨line_end_capped.2.1 ⟨⟨0, 0⟩, ⟨1, 0⟩, ((5 : ℚ) : WithTop ℚ)⟩ 5 rfl,
    (line_end_capped.2.2 ⟨0, 0⟩ ⟨3/5, 4/5⟩ (by norm_num)).2.2⟩



/-- Sanity check (spec §8): an interior point of the unit square is inside. -/
theorem point_in_polygon_unit_square_inside :
    point_in_polygon ⟨1/4, 1/2⟩ [⟨0, 0⟩, ⟨1, 0⟩, ⟨1, 1⟩, ⟨0, 1⟩] = true := by
  norm_num [point_in_polygon, ring_iter, Line.new_ray, intersect_segment_eq,
    segDet, segT, segU]

/-- Sanity check (spec §8): an exterior point of the unit square is outside. -/
theorem point_in_polygon_unit_square_outside :
    point_in_polygon ⟨2, 1/2⟩ [⟨0, 0⟩, ⟨1, 0⟩, ⟨1, 1⟩, ⟨0, 1⟩] = false := by
  norm_num [point_in_polygon, ring_iter, Line.new_ray, intersect_segment_eq,
    segDet, segT, segU]
